import Mathlib

/-!
Verification of `git-squash` (src/main.rs).

Shallow embedding of the squash tool.  The program collapses the commits
unique to the current branch (relative to a target branch) into a single
commit.  All logic lives in `squash` in `src/main.rs`; the git2 library is
the external object store, modelled here by an explicit `Repo` state:

* commits form an append-only association list `Nat × Commit`; object ids
  are allocation-ordered (`nextOid` is the next fresh id), which models the
  fact that a git commit is created after its parents and the graph is
  acyclic — every stored parent id is smaller than its child's id
  (`WFRepo`);
* `git2::Statuses` is a list of per-path flag sets;
* a local branch maps to `some oid` (direct reference) or `none`
  (symbolic reference, `Branch::into_reference().target() == None`);
* `refname_to_id "HEAD"` is the `headTarget` field;
* `merge_base` is modelled as the common ancestor with the largest object
  id (the most recently created common ancestor — for the tree-shaped
  histories the tool targets this is the standard lowest common ancestor);
* the revwalk with `push(head); push(mb); hide(branch)` and
  `git2::Sort::TIME` collects the commits reachable from a pushed root and
  not reachable from the hidden root, sorted newest-first by commit time;
* `Commit::message()` returns `Option` (`none` when the raw message is not
  valid UTF-8); the Rust code calls `.unwrap()` on it, so the embedding's
  outcome type has a `panicked` constructor recording the unwrap site and
  the repository state at the moment of the panic.
-/

/-- The per-path status flags of `git2::Status` (bitflags). -/
inductive StatusFlag where
  | indexNew
  | indexModified
  | indexDeleted
  | indexRenamed
  | indexTypechange
  | wtNew
  | wtModified
  | wtDeleted
  | wtTypechange
  | wtRenamed
  | conflicted
  | ignored
  | wtUnreadable
deriving DecidableEq, Repr

/-- One entry of `git2::Statuses`: a path with its status flag set. -/
structure StatusEntry where
  path : String
  status : List StatusFlag
deriving DecidableEq, Repr

/-- A commit object.  `message = none` models a raw message that is not
valid UTF-8 (`git2::Commit::message()` returns `None` there). -/
structure Commit where
  parents : List Nat
  tree : Nat
  time : Int
  message : Option String
deriving DecidableEq, Repr

/-- An author/committer signature (`git2::Signature`). -/
structure Signature where
  name : String
  email : String
  time : Int
deriving DecidableEq, Repr

/-- The commit object store: association list from oid to commit. -/
abbrev CommitStore := List (Nat × Commit)

/-- The repository state visible to `squash`. -/
structure Repo where
  commits : CommitStore
  /-- Local branches: `some oid` = direct reference, `none` = symbolic. -/
  branches : List (String × Option Nat)
  /-- The oid `refname_to_id("HEAD")` resolves to (`none`: unresolvable). -/
  headTarget : Option Nat
  statuses : List StatusEntry
  /-- The tree currently staged in the index (`write_tree` writes it). -/
  index : Nat
  /-- Tree objects present in the object database. -/
  trees : List Nat
  /-- The configured default signature (`none`: `repo.signature()` fails). -/
  sig : Option Signature
  /-- Fresh-oid source: every stored oid is `< nextOid` in a `WFRepo`. -/
  nextOid : Nat
deriving DecidableEq, Repr

/-- Failures surfaced by the modelled git2 layer (`git2::Error`). -/
inductive Git2Error where
  | refNotFound (name : String)
  | branchNotFound (name : String)
  | noMergeBase
  | walkBadId (oid : Nat)
  | commitNotFound (oid : Nat)
  | treeNotFound (oid : Nat)
  | signatureMissing
deriving DecidableEq, Repr

/-- `GitSquashError` from src/main.rs. -/
inductive GitSquashError where
  | git2 (e : Git2Error)
  | dirtyRepo
  | symbolicRef (name : String)
deriving DecidableEq, Repr

/-- The two `.unwrap()` calls in the rewrite phase of `squash`. -/
inductive PanicSite where
  | lastUnwrap
  | messageUnwrap
deriving DecidableEq, Repr

/-- Result of one run of `squash`: printed lines and final state on
success, an error and the state at failure time, or a panic. -/
inductive Outcome where
  | ok (lines : List String) (repo : Repo)
  | err (e : GitSquashError) (repo : Repo)
  | panicked (site : PanicSite) (repo : Repo)
deriving DecidableEq, Repr

/-- The flag set a path must intersect to count as dirty
(src/main.rs lines 60-71). -/
def dirtyStatuses : List StatusFlag :=
  [.indexNew, .indexModified, .indexDeleted, .indexRenamed, .indexTypechange,
   .wtNew, .wtModified, .wtDeleted, .wtTypechange, .wtRenamed, .conflicted]

/-- `is_dirty` (src/main.rs lines 55-80): empty status list is clean,
otherwise dirty iff some entry's flags intersect `dirtyStatuses`. -/
def is_dirty (statuses : List StatusEntry) : Bool :=
  if statuses.isEmpty then
    false
  else
    statuses.any (fun e => e.status.any (fun f => dirtyStatuses.contains f))

/-- Parents of a stored commit (empty for a missing oid). -/
def parentsOf (g : CommitStore) (i : Nat) : List Nat :=
  match g.lookup i with
  | some c => c.parents
  | none => []

/-- Commit time of a stored commit (0 for a missing oid). -/
def timeOf (g : CommitStore) (i : Nat) : Int :=
  match g.lookup i with
  | some c => c.time
  | none => 0

/-- Fuel-bounded ancestor collection.  Only parent edges that decrease the
oid are followed; in a `WFRepo` every stored edge does, so with fuel
`i + 1` this computes the full reachable set of `i` (the commit itself
and all its ancestors). -/
def reachAux (g : CommitStore) : Nat → Nat → List Nat
  | 0, _ => []
  | fuel + 1, i =>
      i :: ((parentsOf g i).filter (fun p => p < i)).flatMap (reachAux g fuel)

/-- All commits reachable from `i` (itself included). -/
def reachList (g : CommitStore) (i : Nat) : List Nat :=
  reachAux g (i + 1) i

/-- Maximum of a list of oids. -/
def listMaxNat : List Nat → Option Nat
  | [] => none
  | x :: xs =>
      some (match listMaxNat xs with
            | none => x
            | some m => Nat.max x m)

/-- Model of `repo.merge_base(a, b)`: the common ancestor of `a` and `b`
with the largest oid, i.e. the most recently created common ancestor
(`none` when the histories are disconnected). -/
def mergeBase (g : CommitStore) (a b : Nat) : Option Nat :=
  listMaxNat ((reachList g a).filter (fun i => decide (i ∈ reachList g b)))

/-- Insert an oid into a list sorted newest-first by commit time. -/
def insertByTime (g : CommitStore) (i : Nat) : List Nat → List Nat
  | [] => [i]
  | j :: rest =>
      if timeOf g j ≤ timeOf g i then i :: j :: rest
      else j :: insertByTime g i rest

/-- Sort oids newest-first by commit time (`git2::Sort::TIME`). -/
def sortByTimeDesc (g : CommitStore) (l : List Nat) : List Nat :=
  l.foldr (insertByTime g) []

/-- Does the store hold a commit with this oid? -/
def hasCommit (g : CommitStore) (i : Nat) : Bool :=
  (g.lookup i).isSome

/-- Model of the revwalk of src/main.rs lines 104-113:
`push(head); push(mb); hide(branch)`, sorted by commit time, collected.
Pushing or hiding an oid that is not a stored commit fails. -/
def revwalkCollect (g : CommitStore) (head mb branch : Nat) :
    Except Git2Error (List Nat) :=
  if ¬ hasCommit g head then .error (.walkBadId head)
  else if ¬ hasCommit g mb then .error (.walkBadId mb)
  else if ¬ hasCommit g branch then .error (.walkBadId branch)
  else
    .ok (sortByTimeDesc g
      ((reachList g head ++ reachList g mb).dedup.filter
        (fun i => decide (i ∉ reachList g branch))))

/-- `squash` (src/main.rs lines 82-146), as a function of the repository
state.  Repository discovery (line 83) is the passage from the working
directory to the `Repo` value and is outside the model; the status
computation (line 86) reads the `statuses` field. -/
def squash (branch_name : String) (repo : Repo) : Outcome :=
  -- lines 86-91: dirty check
  if is_dirty repo.statuses then .err .dirtyRepo repo
  else
    -- line 93: refname_to_id("HEAD")
    match repo.headTarget with
    | none => .err (.git2 (.refNotFound "HEAD")) repo
    | some head =>
      -- lines 95-100: find_branch + target()
      match repo.branches.lookup branch_name with
      | none => .err (.git2 (.branchNotFound branch_name)) repo
      | some none => .err (.symbolicRef branch_name) repo
      | some (some branch) =>
        -- line 102: merge_base(branch, head)
        match mergeBase repo.commits branch head with
        | none => .err (.git2 .noMergeBase) repo
        | some mb =>
          -- lines 104-113: revwalk
          match revwalkCollect repo.commits head mb branch with
          | .error e => .err (.git2 e) repo
          | .ok commits_to_squash =>
            -- lines 115-121: no-op cases
            if commits_to_squash.isEmpty then
              .ok ["No commits to squash"] repo
            else if commits_to_squash.length == 1 then
              .ok ["Only one commit to squash."] repo
            else
              -- line 123: find_commit(mb)
              match repo.commits.lookup mb with
              | none => .err (.git2 (.commitNotFound mb)) repo
              | some _mb_commit =>
                -- line 125: soft reset to the merge base, then
                -- line 128: write the index to a tree.  The state after
                -- these two writes (HEAD moved, index tree in the odb):
                -- `{ repo with headTarget := some mb,
                --    trees := repo.index :: repo.trees }`.
                -- line 132: commits_to_squash.last().unwrap()
                match commits_to_squash.getLast? with
                | none =>
                    .panicked .lastUnwrap
                      { repo with headTarget := some mb,
                                  trees := repo.index :: repo.trees }
                | some last_oid =>
                  -- line 132: find_commit(last)
                  match repo.commits.lookup last_oid with
                  | none =>
                      .err (.git2 (.commitNotFound last_oid))
                        { repo with headTarget := some mb,
                                    trees := repo.index :: repo.trees }
                  | some last_commit =>
                    -- line 135: repo.signature()
                    match repo.sig with
                    | none =>
                        .err (.git2 .signatureMissing)
                          { repo with headTarget := some mb,
                                      trees := repo.index :: repo.trees }
                    | some sig =>
                      -- line 140: last_commit.message().unwrap()
                      match last_commit.message with
                      | none =>
                          .panicked .messageUnwrap
                            { repo with headTarget := some mb,
                                        trees := repo.index :: repo.trees }
                      | some msg =>
                        -- line 141: find_tree(tree_oid)
                        if repo.index ∈ repo.index :: repo.trees then
                          -- lines 136-143: create the commit, update HEAD
                          .ok []
                            { repo with
                              commits := (repo.nextOid,
                                { parents := [mb], tree := repo.index,
                                  time := sig.time,
                                  message := some msg }) :: repo.commits,
                              headTarget := some repo.nextOid,
                              trees := repo.index :: repo.trees,
                              nextOid := repo.nextOid + 1 }
                        else
                          .err (.git2 (.treeNotFound repo.index))
                            { repo with headTarget := some mb,
                                        trees := repo.index :: repo.trees }

/-- The repository state an outcome leaves behind. -/
def Outcome.state : Outcome → Repo
  | .ok _ r => r
  | .err _ r => r
  | .panicked _ r => r

/-- One run of `squash`, viewed as a state transformer. -/
def squashRepo (branch_name : String) (r : Repo) : Repo :=
  (squash branch_name r).state

/-- Well-formed repository: stored oids are below `nextOid` and every
stored parent edge decreases the oid (commits are created after their
parents; the graph is acyclic). -/
def WFRepo (r : Repo) : Prop :=
  ∀ p ∈ r.commits, p.1 < r.nextOid ∧ ∀ q ∈ p.2.parents, q < p.1

/-- The errors produced by the read phase of `squash` (status inspection,
HEAD and branch resolution, merge-base computation, commit-graph walk) —
the failures the spec's §4.3 groups as "read failures". -/
def isReadFailure : GitSquashError → Bool
  | .git2 (.refNotFound _) => true
  | .git2 (.branchNotFound _) => true
  | .git2 .noMergeBase => true
  | .git2 (.walkBadId _) => true
  | .symbolicRef _ => true
  | _ => false

/-- Example repository: `master` at commit 1, HEAD at commit 3, two
commits (2 and 3) unique to the current branch, clean working state.
The oldest unique commit (2) carries the message "real change". -/
def exRepo : Repo :=
  { commits :=
      [(3, { parents := [2], tree := 30, time := 3, message := some "c3" }),
       (2, { parents := [1], tree := 20, time := 2,
             message := some "real change" }),
       (1, { parents := [0], tree := 10, time := 1, message := some "b" }),
       (0, { parents := [], tree := 5, time := 0, message := some "root" })],
    branches := [("master", some 1)],
    headTarget := some 3,
    statuses := [],
    index := 30,
    trees := [30],
    sig := some { name := "u", email := "e", time := 9 },
    nextOid := 4 }

/-- Like `exRepo`, but the oldest unique commit's raw message is not
valid UTF-8 (`message = none`). -/
def exRepoBadMsg : Repo :=
  { exRepo with
    commits :=
      [(3, { parents := [2], tree := 30, time := 3, message := some "c3" }),
       (2, { parents := [1], tree := 20, time := 2, message := none }),
       (1, { parents := [0], tree := 10, time := 1, message := some "b" }),
       (0, { parents := [], tree := 5, time := 0, message := some "root" })] }

/-- Like `exRepo`, but HEAD sits on the target branch tip: zero unique
commits. -/
def exRepoNoop : Repo :=
  { exRepo with headTarget := some 1 }

/-- Like `exRepo`, but the `master` reference is symbolic. -/
def exRepoSym : Repo :=
  { exRepo with branches := [("master", none)] }

/-- Like `exRepo`, but with a modified file in the working tree. -/
def exRepoDirty : Repo :=
  { exRepo with statuses := [{ path := "a.txt", status := [.wtModified] }] }

/-- Like `exRepo`, but HEAD does not resolve to a commit. -/
def exRepoNoHead : Repo :=
  { exRepo with headTarget := none }

/-! ## Reachability lemmas -/

theorem flatMap_congr_of_mem {α β : Type} {L : List α} {f f' : α → List β}
    (h : ∀ a ∈ L, f a = f' a) : L.flatMap f = L.flatMap f' := by
  induction L with
  | nil => rfl
  | cons a t iht =>
      simp only [List.flatMap_cons]
      rw [h a (by simp), iht (fun b hb => h b (by simp [hb]))]

theorem reachAux_le (g : CommitStore) :
    ∀ (fuel i j : Nat), j ∈ reachAux g fuel i → j ≤ i := by
  intro fuel
  induction fuel with
  | zero => intro i j h; simp [reachAux] at h
  | succ f ih =>
      intro i j h
      simp only [reachAux, List.mem_cons, List.mem_flatMap] at h
      rcases h with rfl | ⟨p, hp, hj⟩
      · exact le_refl _
      · have hpi : p < i := of_decide_eq_true (List.mem_filter.mp hp).2
        have := ih p j hj
        omega

theorem reachAux_fuel (g : CommitStore) (i : Nat) :
    ∀ (f f' : Nat), i < f → i < f' → reachAux g f i = reachAux g f' i := by
  induction i using Nat.strong_induction_on with
  | _ i ih =>
      intro f f' hf hf'
      match f, f' with
      | fuel + 1, fuel' + 1 =>
          simp only [reachAux]
          congr 1
          apply flatMap_congr_of_mem
          intro p hp
          have hpi : p < i := of_decide_eq_true (List.mem_filter.mp hp).2
          exact ih p hpi fuel fuel' (by omega) (by omega)

theorem reachList_unfold (g : CommitStore) (i : Nat) :
    reachList g i =
      i :: ((parentsOf g i).filter (fun p => p < i)).flatMap (reachList g) := by
  simp only [reachList, reachAux]
  congr 1
  apply flatMap_congr_of_mem
  intro p hp
  have hpi : p < i := of_decide_eq_true (List.mem_filter.mp hp).2
  exact reachAux_fuel g p i (p + 1) (by omega) (by omega)

theorem self_mem_reachList (g : CommitStore) (i : Nat) : i ∈ reachList g i := by
  rw [reachList_unfold]
  exact List.mem_cons_self i _

theorem reachList_le (g : CommitStore) {i j : Nat} (h : j ∈ reachList g i) :
    j ≤ i :=
  reachAux_le g (i + 1) i j h

theorem reachList_trans (g : CommitStore) :
    ∀ (i j k : Nat), j ∈ reachList g i → k ∈ reachList g j →
      k ∈ reachList g i := by
  intro i
  induction i using Nat.strong_induction_on with
  | _ i ih =>
      intro j k hj hk
      rw [reachList_unfold] at hj ⊢
      rcases List.mem_cons.mp hj with rfl | hj'
      · rw [reachList_unfold] at hk
        exact hk
      · rcases List.mem_flatMap.mp hj' with ⟨p, hp, hjp⟩
        have hpi : p < i := of_decide_eq_true (List.mem_filter.mp hp).2
        have hkp : k ∈ reachList g p := ih p hpi j k hjp hk
        exact List.mem_cons.mpr (Or.inr (List.mem_flatMap.mpr ⟨p, hp, hkp⟩))

theorem lookup_cons_ne {c : Commit} (g : CommitStore) {i n : Nat} (h : i ≠ n) :
    ((n, c) :: g).lookup i = g.lookup i := by
  simp [List.lookup, beq_eq_false_iff_ne.mpr h]

theorem parentsOf_cons {c : Commit} (g : CommitStore) {i n : Nat} (h : i ≠ n) :
    parentsOf ((n, c) :: g) i = parentsOf g i := by
  simp [parentsOf, lookup_cons_ne g h]

theorem timeOf_cons {c : Commit} (g : CommitStore) {i n : Nat} (h : i ≠ n) :
    timeOf ((n, c) :: g) i = timeOf g i := by
  simp [timeOf, lookup_cons_ne g h]

theorem reachAux_cons {c : Commit} (g : CommitStore) (n : Nat) :
    ∀ (fuel i : Nat), i < n →
      reachAux ((n, c) :: g) fuel i = reachAux g fuel i := by
  intro fuel
  induction fuel with
  | zero => intro i _; rfl
  | succ f ih =>
      intro i hi
      simp only [reachAux]
      rw [parentsOf_cons g (by omega)]
      congr 1
      apply flatMap_congr_of_mem
      intro p hp
      have hpi : p < i := of_decide_eq_true (List.mem_filter.mp hp).2
      exact ih p (by omega)

theorem reachList_cons {c : Commit} (g : CommitStore) {n i : Nat} (h : i < n) :
    reachList ((n, c) :: g) i = reachList g i :=
  reachAux_cons g n (i + 1) i h

/-! ## Maximum and merge-base lemmas -/

theorem listMaxNat_mem : ∀ {l : List Nat} {m : Nat},
    listMaxNat l = some m → m ∈ l := by
  intro l
  induction l with
  | nil => intro m h; simp [listMaxNat] at h
  | cons x xs ih =>
      intro m h
      cases hxs : listMaxNat xs with
      | none =>
          simp only [listMaxNat, hxs] at h
          have : x = m := Option.some.inj h
          simp [this]
      | some m' =>
          simp only [listMaxNat, hxs] at h
          have hm : Nat.max x m' = m := Option.some.inj h
          rcases Nat.le_total x m' with hle | hle
          · have : Nat.max x m' = m' := Nat.max_eq_right hle
            rw [this] at hm
            subst hm
            exact List.mem_cons.mpr (Or.inr (ih hxs))
          · have : Nat.max x m' = x := Nat.max_eq_left hle
            rw [this] at hm
            simp [hm]

theorem listMaxNat_ub : ∀ {l : List Nat} {m : Nat},
    listMaxNat l = some m → ∀ x ∈ l, x ≤ m := by
  intro l
  induction l with
  | nil => intro m h; simp [listMaxNat] at h
  | cons a xs ih =>
      intro m h x hx
      cases hxs : listMaxNat xs with
      | none =>
          simp only [listMaxNat, hxs] at h
          have ha : a = m := Option.some.inj h
          cases xs with
          | nil =>
              have : x = a := by simpa using hx
              omega
          | cons b t => simp [listMaxNat] at hxs
      | some m' =>
          simp only [listMaxNat, hxs] at h
          have hm : Nat.max a m' = m := Option.some.inj h
          rcases List.mem_cons.mp hx with rfl | hx'
          · exact hm ▸ Nat.le_max_left x m'
          · exact hm ▸ le_trans (ih hxs x hx') (Nat.le_max_right a m')

theorem listMaxNat_isSome {l : List Nat} (h : l ≠ []) :
    (listMaxNat l).isSome := by
  cases l with
  | nil => exact absurd rfl h
  | cons x xs => simp [listMaxNat]

theorem listMaxNat_eq_some {l : List Nat} {m : Nat}
    (hmem : m ∈ l) (hub : ∀ x ∈ l, x ≤ m) : listMaxNat l = some m := by
  have hne : l ≠ [] := List.ne_nil_of_mem hmem
  rcases Option.isSome_iff_exists.mp (listMaxNat_isSome hne) with ⟨m0, hm⟩
  have h1 : m0 ∈ l := listMaxNat_mem hm
  have h2 : m ≤ m0 := listMaxNat_ub hm m hmem
  have h3 : m0 ≤ m := hub m0 h1
  have : m0 = m := by omega
  rw [hm, this]

theorem mergeBase_mem {g : CommitStore} {a b m : Nat}
    (h : mergeBase g a b = some m) :
    m ∈ reachList g a ∧ m ∈ reachList g b := by
  have := listMaxNat_mem h
  have h2 := List.mem_filter.mp this
  exact ⟨h2.1, of_decide_eq_true h2.2⟩

theorem mergeBase_ub {g : CommitStore} {a b m : Nat}
    (h : mergeBase g a b = some m) :
    ∀ x, x ∈ reachList g a → x ∈ reachList g b → x ≤ m := by
  intro x hxa hxb
  exact listMaxNat_ub h x (List.mem_filter.mpr ⟨hxa, decide_eq_true hxb⟩)

/-! ## Sorting lemmas -/

theorem mem_insertByTime (g : CommitStore) (i x : Nat) :
    ∀ (l : List Nat), x ∈ insertByTime g i l ↔ x = i ∨ x ∈ l := by
  intro l
  induction l with
  | nil => simp [insertByTime]
  | cons j rest ih =>
      simp only [insertByTime]
      by_cases hc : timeOf g j ≤ timeOf g i
      · rw [if_pos hc]
        simp [List.mem_cons]
      · rw [if_neg hc]
        simp only [List.mem_cons, ih]
        tauto

theorem mem_sortByTimeDesc (g : CommitStore) (x : Nat) :
    ∀ (l : List Nat), x ∈ sortByTimeDesc g l ↔ x ∈ l := by
  intro l
  induction l with
  | nil => simp [sortByTimeDesc]
  | cons a t ih =>
      simp only [sortByTimeDesc, List.foldr_cons] at *
      rw [mem_insertByTime, ih, List.mem_cons]

theorem sorted_insertByTime (g : CommitStore) (i : Nat) :
    ∀ (l : List Nat),
      l.Pairwise (fun a b => timeOf g b ≤ timeOf g a) →
      (insertByTime g i l).Pairwise (fun a b => timeOf g b ≤ timeOf g a) := by
  intro l
  induction l with
  | nil => intro _; simp [insertByTime]
  | cons j rest ih =>
      intro hs
      rcases List.pairwise_cons.mp hs with ⟨hj, hrest⟩
      simp only [insertByTime]
      by_cases hc : timeOf g j ≤ timeOf g i
      · rw [if_pos hc]
        refine List.pairwise_cons.mpr ⟨?_, hs⟩
        intro b hb
        rcases List.mem_cons.mp hb with rfl | hb'
        · exact hc
        · exact le_trans (hj b hb') hc
      · rw [if_neg hc]
        refine List.pairwise_cons.mpr ⟨?_, ih hrest⟩
        intro b hb
        rcases (mem_insertByTime g i b rest).mp hb with rfl | hb'
        · exact le_of_not_le hc
        · exact hj b hb'

theorem sorted_sortByTimeDesc (g : CommitStore) (l : List Nat) :
    (sortByTimeDesc g l).Pairwise (fun a b => timeOf g b ≤ timeOf g a) := by
  induction l with
  | nil => simp [sortByTimeDesc]
  | cons a t ih =>
      simp only [sortByTimeDesc, List.foldr_cons] at *
      exact sorted_insertByTime g a _ ih

theorem getLast_min_of_sorted (g : CommitStore) :
    ∀ (l : List Nat),
      l.Pairwise (fun a b => timeOf g b ≤ timeOf g a) →
      ∀ o, l.getLast? = some o → ∀ x ∈ l, timeOf g o ≤ timeOf g x := by
  intro l
  induction l with
  | nil => intro _ o h; simp at h
  | cons a t ih =>
      intro hs o hlast x hx
      rcases List.pairwise_cons.mp hs with ⟨ha, ht⟩
      cases t with
      | nil =>
          simp at hlast hx
          subst hlast
          subst hx
          exact le_refl _
      | cons b t' =>
          rw [List.getLast?_cons_cons] at hlast
          have ho : o ∈ b :: t' := by
            rcases List.mem_getLast?_eq_getLast (Option.mem_def.mpr hlast) with
              ⟨hne, heq⟩
            rw [heq]
            exact List.getLast_mem hne
          rcases List.mem_cons.mp hx with rfl | hx'
          · exact ha o ho
          · exact ih ht o hlast x hx'

/-! ## Store and revwalk lemmas -/

theorem lookup_mem : ∀ {g : CommitStore} {i : Nat} {c : Commit},
    g.lookup i = some c → (i, c) ∈ g := by
  intro g
  induction g with
  | nil => intro i c h; simp [List.lookup] at h
  | cons p t ih =>
      intro i c h
      cases hbeq : (i == p.1) with
      | true =>
          simp only [List.lookup, hbeq] at h
          have h1 : i = p.1 := by simpa using hbeq
          have h2 : p.2 = c := Option.some.inj h
          have : p = (i, c) := by
            cases p
            simp_all
          simp [this]
      | false =>
          simp only [List.lookup, hbeq] at h
          exact List.mem_cons.mpr (Or.inr (ih h))

theorem lookup_cons_self {c : Commit} (g : CommitStore) (n : Nat) :
    ((n, c) :: g).lookup n = some c := by
  simp [List.lookup]

theorem revwalkCollect_ok {g : CommitStore} {head mb branch : Nat}
    {w : List Nat} (hw : revwalkCollect g head mb branch = .ok w) :
    hasCommit g head = true ∧ hasCommit g mb = true ∧
    hasCommit g branch = true ∧
    w = sortByTimeDesc g
          ((reachList g head ++ reachList g mb).dedup.filter
            (fun i => decide (i ∉ reachList g branch))) := by
  unfold revwalkCollect at hw
  by_cases h1 : hasCommit g head
  · by_cases h2 : hasCommit g mb
    · by_cases h3 : hasCommit g branch
      · rw [if_neg (by simp [h1]), if_neg (by simp [h2]),
            if_neg (by simp [h3])] at hw
        exact ⟨h1, h2, h3, (Except.ok.inj hw).symm⟩
      · rw [if_neg (by simp [h1]), if_neg (by simp [h2]),
            if_pos (by simp [h3])] at hw
        exact Except.noConfusion hw
    · rw [if_neg (by simp [h1]), if_pos (by simp [h2])] at hw
      exact Except.noConfusion hw
  · rw [if_pos (by simp [h1])] at hw
    exact Except.noConfusion hw

theorem mem_revwalk {g : CommitStore} {head mb branch : Nat} {w : List Nat}
    (hw : revwalkCollect g head mb branch = .ok w) (x : Nat) :
    x ∈ w ↔
      (x ∈ reachList g head ∨ x ∈ reachList g mb) ∧
        x ∉ reachList g branch := by
  obtain ⟨_, _, _, rfl⟩ := revwalkCollect_ok hw
  rw [mem_sortByTimeDesc, List.mem_filter, List.mem_dedup, List.mem_append]
  simp

theorem revwalk_sorted {g : CommitStore} {head mb branch : Nat}
    {w : List Nat} (hw : revwalkCollect g head mb branch = .ok w) :
    w.Pairwise (fun a b => timeOf g b ≤ timeOf g a) := by
  obtain ⟨_, _, _, rfl⟩ := revwalkCollect_ok hw
  exact sorted_sortByTimeDesc g _

/-! ## Path lemmas for `squash` -/

theorem squash_rewrite (r : Repo) (nm : String) (head b mb last_oid : Nat)
    (walk : List Nat) (mbC lastC : Commit) (sig : Signature)
    (hclean : is_dirty r.statuses = false)
    (hhead : r.headTarget = some head)
    (hbr : r.branches.lookup nm = some (some b))
    (hmb : mergeBase r.commits b head = some mb)
    (hwalk : revwalkCollect r.commits head mb b = .ok walk)
    (hlen : 2 ≤ walk.length)
    (hmbC : r.commits.lookup mb = some mbC)
    (hlast : walk.getLast? = some last_oid)
    (hlastC : r.commits.lookup last_oid = some lastC)
    (hsig : r.sig = some sig) :
    squash nm r =
      match lastC.message with
      | none => .panicked .messageUnwrap
          { r with headTarget := some mb, trees := r.index :: r.trees }
      | some msg => .ok []
          { r with
            commits := (r.nextOid,
              { parents := [mb], tree := r.index, time := sig.time,
                message := some msg }) :: r.commits,
            headTarget := some r.nextOid,
            trees := r.index :: r.trees,
            nextOid := r.nextOid + 1 } := by
  match walk, hlen with
  | w0 :: w1 :: ws, _ =>
    simp only [squash, hclean, hhead, hbr, hmb, hwalk, hmbC, hlast, hlastC,
      hsig, Bool.false_eq_true, if_false, List.isEmpty_cons, List.length_cons]
    cases hm : lastC.message with
    | none => simp [hm]
    | some msg => simp [hm]

theorem squash_dirty_inv {nm : String} {r s' : Repo}
    (h : squash nm r = .err .dirtyRepo s') :
    is_dirty r.statuses = true ∧ s' = r := by
  unfold squash at h
  split at h
  · exact ⟨by assumption, (Outcome.err.inj h).2.symm⟩
  · split at h <;> try cases h
    split at h <;> try cases h
    split at h <;> try cases h
    split at h <;> try cases h
    split at h <;> try cases h
    split at h <;> try cases h
    split at h <;> try cases h
    split at h <;> try cases h
    split at h <;> try cases h
    split at h <;> try cases h
    split at h <;> try cases h
    split at h <;> cases h

theorem is_dirty_iff (l : List StatusEntry) :
    is_dirty l = true ↔ ∃ e ∈ l, ∃ f ∈ e.status, f ∈ dirtyStatuses := by
  unfold is_dirty
  cases l with
  | nil => simp
  | cons a t => simp [List.any_eq_true]

/-! ## The claims -/

/-- Claim C3: `squash` fails with `DirtyRepo` if and only if some path in
the combined index/working-tree status carries at least one of the eleven
dirty flags; the check is pure and on this failure the repository state is
unchanged. -/
theorem C3_dirty_check_iff (nm : String) (r : Repo) :
    ((∃ s', squash nm r = .err .dirtyRepo s') ↔
      ∃ e ∈ r.statuses, ∃ f ∈ e.status, f ∈ dirtyStatuses)
    ∧ ∀ s', squash nm r = .err .dirtyRepo s' → s' = r := by
  refine ⟨⟨?_, ?_⟩, ?_⟩
  · rintro ⟨s', hs⟩
    exact (is_dirty_iff r.statuses).mp (squash_dirty_inv hs).1
  · intro hdirty
    have hd : is_dirty r.statuses = true := (is_dirty_iff r.statuses).mpr hdirty
    exact ⟨r, by simp [squash, hd]⟩
  · intro s' hs
    exact (squash_dirty_inv hs).2

/-- Witness for C3 at a concrete dirty repository. -/
theorem C3_dirty_check_iff_witness :
    squash "master" exRepoDirty = .err .dirtyRepo exRepoDirty := by
  obtain ⟨s', hs⟩ := (C3_dirty_check_iff "master" exRepoDirty).1.mpr
    ⟨{ path := "a.txt", status := [.wtModified] }, by decide, .wtModified,
      by decide, by decide⟩
  rw [(C3_dirty_check_iff "master" exRepoDirty).2 s' hs] at hs
  exact hs

/-- Claim C4: a branch whose local reference exists but is symbolic makes
`squash` fail with `SymbolicRef` carrying the branch name, with the
repository unmodified. -/
theorem C4_symbolic_ref (nm : String) (r : Repo) (head : Nat)
    (hclean : is_dirty r.statuses = false)
    (hhead : r.headTarget = some head)
    (hbr : r.branches.lookup nm = some none) :
    squash nm r = .err (.symbolicRef nm) r := by
  simp [squash, hclean, hhead, hbr]

/-- Witness for C4 at a concrete repository with a symbolic `master`. -/
theorem C4_symbolic_ref_witness :
    squash "master" exRepoSym = .err (.symbolicRef "master") exRepoSym :=
  C4_symbolic_ref "master" exRepoSym 3 (by decide) rfl (by decide)

/-- Claim C2: a squash range of length 0 or 1 makes `squash` terminate
successfully with the corresponding informational line and no mutation of
the repository. -/
theorem C2_noop_short_range (nm : String) (r : Repo) (head b mb : Nat)
    (walk : List Nat)
    (hclean : is_dirty r.statuses = false)
    (hhead : r.headTarget = some head)
    (hbr : r.branches.lookup nm = some (some b))
    (hmb : mergeBase r.commits b head = some mb)
    (hwalk : revwalkCollect r.commits head mb b = .ok walk)
    (hlen : walk.length ≤ 1) :
    squash nm r =
      .ok (if walk.isEmpty then ["No commits to squash"]
           else ["Only one commit to squash."]) r := by
  match walk, hlen with
  | [], _ => simp [squash, hclean, hhead, hbr, hmb, hwalk]
  | [w], _ => simp [squash, hclean, hhead, hbr, hmb, hwalk]

/-- Witness for C2 at a concrete repository with zero unique commits. -/
theorem C2_noop_short_range_witness :
    squash "master" exRepoNoop = .ok ["No commits to squash"] exRepoNoop := by
  simpa using C2_noop_short_range "master" exRepoNoop 1 1 1 []
    (by decide) rfl (by decide) (by decide) rfl (by decide)

/-- Claim C1: on a clean repository with `N ≥ 2` unique commits, `squash`
creates exactly one new commit whose sole parent is the merge base, whose
tree is the tree HEAD had before the run, and whose message is that of the
oldest (minimal commit time, last in the newest-first range) of the unique
commits; HEAD ends up at the new commit and nothing else changes. -/
theorem C1_rewrite_single_commit (r : Repo) (nm : String)
    (head b mb last_oid : Nat) (walk : List Nat)
    (mbC lastC headC : Commit) (sig : Signature) (msg : String)
    (hclean : is_dirty r.statuses = false)
    (hhead : r.headTarget = some head)
    (hheadC : r.commits.lookup head = some headC)
    (hidx : r.index = headC.tree)
    (hbr : r.branches.lookup nm = some (some b))
    (hmb : mergeBase r.commits b head = some mb)
    (hwalk : revwalkCollect r.commits head mb b = .ok walk)
    (hlen : 2 ≤ walk.length)
    (hmbC : r.commits.lookup mb = some mbC)
    (hlast : walk.getLast? = some last_oid)
    (hlastC : r.commits.lookup last_oid = some lastC)
    (hmsg : lastC.message = some msg)
    (hsig : r.sig = some sig) :
    squash nm r = .ok []
      { r with
        commits := (r.nextOid,
          { parents := [mb], tree := headC.tree, time := sig.time,
            message := some msg }) :: r.commits,
        headTarget := some r.nextOid,
        trees := r.index :: r.trees,
        nextOid := r.nextOid + 1 }
    ∧ ∀ x ∈ walk, timeOf r.commits last_oid ≤ timeOf r.commits x := by
  constructor
  · have h := squash_rewrite r nm head b mb last_oid walk mbC lastC sig
      hclean hhead hbr hmb hwalk hlen hmbC hlast hlastC hsig
    rw [hmsg] at h
    rw [← hidx]
    exact h
  · exact getLast_min_of_sorted r.commits walk (revwalk_sorted hwalk)
      last_oid hlast

/-- Witness for C1 at a concrete repository (two unique commits, oldest
message "real change"). -/
theorem C1_rewrite_single_commit_witness :
    squash "master" exRepo = .ok []
      { exRepo with
        commits := (4, { parents := [1], tree := 30, time := 9,
                         message := some "real change" }) :: exRepo.commits,
        headTarget := some 4,
        trees := 30 :: exRepo.trees,
        nextOid := 5 }
    ∧ ∀ x ∈ [3, 2], timeOf exRepo.commits 2 ≤ timeOf exRepo.commits x := by
  simpa using C1_rewrite_single_commit exRepo "master" 3 1 1 2 [3, 2]
    { parents := [0], tree := 10, time := 1, message := some "b" }
    { parents := [1], tree := 20, time := 2, message := some "real change" }
    { parents := [2], tree := 30, time := 3, message := some "c3" }
    { name := "u", email := "e", time := 9 } "real change"
    (by decide) rfl (by decide) (by decide) (by decide) (by decide) rfl
    (by decide) (by decide) (by decide) (by decide) (by decide) rfl

/-- Claim C9: when the oldest commit of an `N ≥ 2` range has a message
that is not valid UTF-8, `squash` panics at the message unwrap instead of
returning an error, after HEAD has already been soft-reset to the merge
base and before any replacement commit is created. -/
theorem C9_panic_after_reset (r : Repo) (nm : String)
    (head b mb last_oid : Nat) (walk : List Nat)
    (mbC lastC : Commit) (sig : Signature)
    (hclean : is_dirty r.statuses = false)
    (hhead : r.headTarget = some head)
    (hbr : r.branches.lookup nm = some (some b))
    (hmb : mergeBase r.commits b head = some mb)
    (hwalk : revwalkCollect r.commits head mb b = .ok walk)
    (hlen : 2 ≤ walk.length)
    (hmbC : r.commits.lookup mb = some mbC)
    (hlast : walk.getLast? = some last_oid)
    (hlastC : r.commits.lookup last_oid = some lastC)
    (hmsg : lastC.message = none)
    (hsig : r.sig = some sig) :
    ∃ s', squash nm r = .panicked .messageUnwrap s'
      ∧ s'.headTarget = some mb
      ∧ s'.commits = r.commits
      ∧ s'.branches = r.branches := by
  have h := squash_rewrite r nm head b mb last_oid walk mbC lastC sig
    hclean hhead hbr hmb hwalk hlen hmbC hlast hlastC hsig
  rw [hmsg] at h
  exact ⟨_, h, rfl, rfl, rfl⟩

/-- Witness for C9 at a concrete repository whose oldest unique commit
has an invalid-UTF-8 message. -/
theorem C9_panic_after_reset_witness :
    ∃ s', squash "master" exRepoBadMsg = .panicked .messageUnwrap s'
      ∧ s'.headTarget = some 1
      ∧ s'.commits = exRepoBadMsg.commits
      ∧ s'.branches = exRepoBadMsg.branches :=
  C9_panic_after_reset exRepoBadMsg "master" 3 1 1 2 [3, 2]
    { parents := [0], tree := 10, time := 1, message := some "b" }
    { parents := [1], tree := 20, time := 2, message := none }
    { name := "u", email := "e", time := 9 }
    (by decide) rfl (by decide) (by decide) rfl (by decide) (by decide)
    (by decide) (by decide) (by decide) rfl

/-- Claim C10: a panic of `squash` can only be the message unwrap: the
unwrap of the last (oldest) element of the range is unreachable in its
`None` branch, because that code only runs when the range has at least
two elements. -/
theorem C10_last_unwrap_unreachable (nm : String) (r s' : Repo)
    (site : PanicSite) (h : squash nm r = .panicked site s') :
    site = .messageUnwrap := by
  unfold squash at h
  repeat' split at h
  all_goals
    first
      | exact ((Outcome.panicked.inj h).1).symm
      | (exfalso; simp_all [List.getLast?_eq_none_iff])
      | cases h

/-- Witness for C10 at the concrete panicking repository of C9. -/
theorem C10_last_unwrap_unreachable_witness :
    PanicSite.messageUnwrap = PanicSite.messageUnwrap := by
  have h : squash "master" exRepoBadMsg = .panicked .messageUnwrap
      { exRepoBadMsg with headTarget := some 1,
                          trees := exRepoBadMsg.index :: exRepoBadMsg.trees } := by
    decide
  exact (C10_last_unwrap_unreachable "master" exRepoBadMsg _ _ h).symm ▸ rfl

/-- Claim C6: when a read step fails (HEAD or branch resolution,
merge-base computation, commit-graph walk — status computation and
repository discovery cannot fail in the model), `squash` returns the
error before any write and the repository state is unchanged. -/
theorem C6_read_failures_no_write (nm : String) (r s' : Repo)
    (e : GitSquashError) (h : squash nm r = .err e s')
    (hre : isReadFailure e = true) : s' = r := by
  unfold squash at h
  repeat' split at h
  all_goals
    first
      | exact ((Outcome.err.inj h).2).symm
      | (rw [← (Outcome.err.inj h).1] at hre; simp [isReadFailure] at hre)
      | cases h

/-- Witness for C6 at a concrete repository whose HEAD is unresolvable. -/
theorem C6_read_failures_no_write_witness : exRepoNoHead = exRepoNoHead :=
  C6_read_failures_no_write "master" exRepoNoHead exRepoNoHead
    (.git2 (.refNotFound "HEAD")) (by decide) (by decide)

/-- Claim C7: a single run of `squash` creates at most one new commit,
moves no reference other than HEAD/the current branch, and mutates no
existing commit object in place. -/
theorem C7_bounded_writes (nm : String) (r : Repo) (hWF : WFRepo r) :
    ((squashRepo nm r).commits = r.commits ∨
      ∃ c, (squashRepo nm r).commits = (r.nextOid, c) :: r.commits)
    ∧ (squashRepo nm r).branches = r.branches
    ∧ ∀ i c, r.commits.lookup i = some c →
        (squashRepo nm r).commits.lookup i = some c := by
  unfold squashRepo squash
  repeat' split
  all_goals dsimp only [Outcome.state]
  all_goals
    first
      | exact ⟨Or.inl rfl, rfl, fun i c hc => hc⟩
      | refine ⟨Or.inr ⟨_, rfl⟩, rfl, fun i c hc => ?_⟩
        rw [lookup_cons_ne r.commits
          (by have := (hWF _ (lookup_mem hc)).1; omega)]
        exact hc

/-- Witness for C7 at the concrete example repository. -/
theorem C7_bounded_writes_witness :
    ((squashRepo "master" exRepo).commits = exRepo.commits ∨
      ∃ c, (squashRepo "master" exRepo).commits =
        (exRepo.nextOid, c) :: exRepo.commits)
    ∧ (squashRepo "master" exRepo).branches = exRepo.branches
    ∧ ∀ i c, exRepo.commits.lookup i = some c →
        (squashRepo "master" exRepo).commits.lookup i = some c :=
  C7_bounded_writes "master" exRepo (by unfold WFRepo; decide)

/-- Claim C5: the squash range is exactly the set of commits reachable
from HEAD or from the merge base minus the commits reachable from the
target branch tip, ordered newest-first by commit time, and the merge
base itself is never in the range. -/
theorem C5_range_characterization (g : CommitStore) (head b mb : Nat)
    (w : List Nat)
    (hmb : mergeBase g b head = some mb)
    (hwalk : revwalkCollect g head mb b = .ok w) :
    (∀ x, x ∈ w ↔
        (x ∈ reachList g head ∨ x ∈ reachList g mb) ∧ x ∉ reachList g b)
    ∧ w.Pairwise (fun a c => timeOf g c ≤ timeOf g a)
    ∧ mb ∉ w := by
  refine ⟨mem_revwalk hwalk, revwalk_sorted hwalk, fun hmem => ?_⟩
  exact ((mem_revwalk hwalk mb).mp hmem).2 (mergeBase_mem hmb).1

/-- Witness for C5 at the concrete example repository. -/
theorem C5_range_characterization_witness :
    (∀ x, x ∈ [3, 2] ↔
        (x ∈ reachList exRepo.commits 3 ∨ x ∈ reachList exRepo.commits 1)
          ∧ x ∉ reachList exRepo.commits 1)
    ∧ ([3, 2] : List Nat).Pairwise
        (fun a c => timeOf exRepo.commits c ≤ timeOf exRepo.commits a)
    ∧ 1 ∉ [3, 2] :=
  C5_range_characterization exRepo.commits 3 1 1 [3, 2] (by decide) rfl

theorem C8_idempotent_fixed_point (r : Repo) (nm : String)
    (head b mb last_oid : Nat) (walk : List Nat)
    (mbC lastC : Commit) (sig : Signature) (msg : String)
    (hWF : WFRepo r)
    (hclean : is_dirty r.statuses = false)
    (hhead : r.headTarget = some head)
    (hbr : r.branches.lookup nm = some (some b))
    (hmb : mergeBase r.commits b head = some mb)
    (hwalk : revwalkCollect r.commits head mb b = .ok walk)
    (hlen : 2 ≤ walk.length)
    (hmbC : r.commits.lookup mb = some mbC)
    (hlast : walk.getLast? = some last_oid)
    (hlastC : r.commits.lookup last_oid = some lastC)
    (hmsg : lastC.message = some msg)
    (hsig : r.sig = some sig) :
    squash nm (squashRepo nm r) =
      .ok ["Only one commit to squash."] (squashRepo nm r)
    ∧ ∀ k, (squashRepo nm)^[k] (squashRepo nm r) = squashRepo nm r := by
  have h1 := squash_rewrite r nm head b mb last_oid walk mbC lastC sig
    hclean hhead hbr hmb hwalk hlen hmbC hlast hlastC hsig
  rw [hmsg] at h1
  set s1 : Repo :=
    { r with
      commits := (r.nextOid,
        { parents := [mb], tree := r.index, time := sig.time,
          message := some msg }) :: r.commits,
      headTarget := some r.nextOid,
      trees := r.index :: r.trees,
      nextOid := r.nextOid + 1 } with hs1
  have hsr : squashRepo nm r = s1 := by
    unfold squashRepo
    rw [h1]
    rfl
  obtain ⟨hHead, hMb, hBr, _⟩ := revwalkCollect_ok hwalk
  obtain ⟨cb, hcb⟩ := Option.isSome_iff_exists.mp hBr
  obtain ⟨cm, hcm⟩ := Option.isSome_iff_exists.mp hMb
  have hbN : b < r.nextOid := (hWF _ (lookup_mem hcb)).1
  have hmbN : mb < r.nextOid := (hWF _ (lookup_mem hcm)).1
  have hrb : reachList s1.commits b = reachList r.commits b :=
    reachList_cons r.commits hbN
  have hrm : reachList s1.commits mb = reachList r.commits mb :=
    reachList_cons r.commits hmbN
  have hparents : parentsOf s1.commits r.nextOid = [mb] := by
    simp [parentsOf, lookup_cons_self, hs1]
  have hreachN : reachList s1.commits r.nextOid =
      r.nextOid :: reachList r.commits mb := by
    rw [reachList_unfold, hparents]
    have hf : [mb].filter (fun p => p < r.nextOid) = [mb] := by
      simp [hmbN]
    rw [hf]
    simp [hrm]
  have hmbBase : mb ∈ reachList r.commits b := (mergeBase_mem hmb).1
  have hmb2 : mergeBase s1.commits b r.nextOid = some mb := by
    unfold mergeBase
    apply listMaxNat_eq_some
    · apply List.mem_filter.mpr
      refine ⟨by rw [hrb]; exact hmbBase, ?_⟩
      rw [hreachN]
      exact decide_eq_true
        (List.mem_cons.mpr (Or.inr (self_mem_reachList r.commits mb)))
    · intro x hx
      obtain ⟨hx1, hx2⟩ := List.mem_filter.mp hx
      rw [hrb] at hx1
      have hx2' : x ∈ reachList s1.commits r.nextOid := of_decide_eq_true hx2
      rw [hreachN] at hx2'
      rcases List.mem_cons.mp hx2' with rfl | hxm
      · exact absurd (reachList_le r.commits hx1) (by omega)
      · exact reachList_le r.commits hxm
  have hwalk2 : revwalkCollect s1.commits r.nextOid mb b = .ok [r.nextOid] := by
    unfold revwalkCollect
    have hcN : hasCommit s1.commits r.nextOid = true := by
      simp [hasCommit, hs1, lookup_cons_self]
    have hcmb : hasCommit s1.commits mb = true := by
      have he : s1.commits.lookup mb = r.commits.lookup mb :=
        lookup_cons_ne r.commits (show mb ≠ r.nextOid by omega)
      simp [hasCommit, he, hcm]
    have hcb2 : hasCommit s1.commits b = true := by
      have he : s1.commits.lookup b = r.commits.lookup b :=
        lookup_cons_ne r.commits (show b ≠ r.nextOid by omega)
      simp [hasCommit, he, hcb]
    rw [if_neg (by simp [hcN]), if_neg (by simp [hcmb]),
        if_neg (by simp [hcb2])]
    congr 1
    rw [hreachN, hrm]
    have hNnm : r.nextOid ∉
        reachList r.commits mb ++ reachList r.commits mb := by
      intro hmem
      rcases List.mem_append.mp hmem with hm | hm <;>
        exact absurd (reachList_le r.commits hm) (by omega)
    rw [show (r.nextOid :: reachList r.commits mb) ++ reachList r.commits mb
          = r.nextOid :: (reachList r.commits mb ++ reachList r.commits mb)
        from rfl]
    rw [List.dedup_cons_of_not_mem hNnm]
    rw [List.filter_cons]
    have hNhide : (decide (r.nextOid ∉ reachList s1.commits b)) = true := by
      rw [hrb]
      exact decide_eq_true
        (fun hm => absurd (reachList_le r.commits hm) (by omega))
    rw [if_pos (by rw [hNhide])]
    have hrest :
        (reachList r.commits mb ++ reachList r.commits mb).dedup.filter
          (fun i => decide (i ∉ reachList s1.commits b)) = [] := by
      apply List.filter_eq_nil_iff.mpr
      intro a ha
      have haX : a ∈ reachList r.commits mb := by
        rcases List.mem_append.mp (List.mem_dedup.mp ha) with h | h <;> exact h
      have haH : a ∈ reachList r.commits b :=
        reachList_trans r.commits b mb a hmbBase haX
      rw [hrb]
      simp [haH]
    rw [hrest]
    rfl
  have h2 : squash nm s1 = .ok ["Only one commit to squash."] s1 := by
    have hclean1 : is_dirty s1.statuses = false := hclean
    have hhead1 : s1.headTarget = some r.nextOid := rfl
    have hbr1 : s1.branches.lookup nm = some (some b) := hbr
    simp [squash, hclean1, hhead1, hbr1, hmb2, hwalk2]
  have hfix : squashRepo nm s1 = s1 := by
    unfold squashRepo
    rw [h2]
    rfl
  constructor
  · rw [hsr]
    exact h2
  · intro k
    rw [hsr]
    exact Function.iterate_fixed hfix k

/-- Witness for C8 at the concrete example repository. -/
theorem C8_idempotent_fixed_point_witness :
    squash "master" (squashRepo "master" exRepo) =
      .ok ["Only one commit to squash."] (squashRepo "master" exRepo)
    ∧ ∀ k, (squashRepo "master")^[k] (squashRepo "master" exRepo) =
        squashRepo "master" exRepo :=
  C8_idempotent_fixed_point exRepo "master" 3 1 1 2 [3, 2]
    { parents := [0], tree := 10, time := 1, message := some "b" }
    { parents := [1], tree := 20, time := 2, message := some "real change" }
    { name := "u", email := "e", time := 9 } "real change"
    (by unfold WFRepo; decide) (by decide) rfl (by decide) (by decide) rfl
    (by decide) (by decide) (by decide) (by decide) (by decide) rfl
